import Mathlib

/-!
# bshell: a verification development

A shallow embedding of `src/bshell.c` (the tokenizer `parse_args`, the
dispatcher `execute`, the builtins, the process launcher `launch_process` and
one iteration of the command loop `commands`), followed by theorems about it.

Conventions of the embedding:

* a C string is the list of its characters before the terminating NUL; a
  buffer handed to `parse_args` is a list of characters in which a NUL (or the
  end of the list) ends the string;
* the operating system is an explicit environment `Env` (what `fork`, `execvp`
  and `chdir` answer) and every system or library call a function makes is
  recorded, in order, as an `Event`;
* the heap is an explicit parameter `ra : Nat → Bool` telling whether
  `realloc` succeeds for a requested byte size.
-/

namespace Bshell

/-! ## Characters and C strings -/

/-- The string terminator, the character written as backslash-zero in C. -/
def NUL : Char := Char.ofNat 0

/-- The space character, the only delimiter of `parse_args`. -/
def SP : Char := Char.ofNat 32

/-- The line terminator. -/
def NL : Char := Char.ofNat 10

/-- The horizontal tab (not a delimiter). -/
def TAB : Char := Char.ofNat 9

/-- The single quote character (not a delimiter, no quoting is done). -/
def QUOTE : Char := Char.ofNat 39

/-- The double quote character (not a delimiter, no quoting is done). -/
def DQUOTE : Char := Char.ofNat 34

/-- The test `*s == 0` on a pointer into a buffer: the end of the buffer is an
implicit terminator. -/
def at_end : List Char → Bool
  | [] => true
  | c :: _ => c == NUL

/-- The C string a buffer holds: its characters before the first NUL. -/
def cstr (buf : List Char) : List Char := buf.takeWhile (fun c => c != NUL)

/-- Library `strcmp` on two buffers: zero when the strings are equal, otherwise
the difference of the first two characters that differ. The comparison stops
at a NUL; the end of a list is the terminator and counts as 0. -/
def strcmp : List Char → List Char → Int
  | [], [] => 0
  | [], b :: _ => 0 - (b.toNat : Int)
  | a :: _, [] => (a.toNat : Int)
  | a :: as, b :: bs =>
    if a = b then (if a = NUL then 0 else strcmp as bs) else (a.toNat : Int) - (b.toNat : Int)

/-- Library `strtok` (the reentrant core, with the saved pointer made explicit):
skip the leading delimiters; if the string ends there, return no token;
otherwise the token runs up to the next delimiter or the terminator, a
delimiter is overwritten by NUL and the saved pointer moves past it.
Returns the token (or NULL) and the new saved pointer. -/
def strtok (delim : List Char) (s : List Char) : Option (List Char) × List Char :=
  if at_end s then (none, s)
  else
    let s1 := s.dropWhile (fun c => delim.contains c)
    if at_end s1 then (none, s1)
    else
      let tok := s1.takeWhile (fun c => !(delim.contains c) && c != NUL)
      let e := s1.dropWhile (fun c => !(delim.contains c) && c != NUL)
      if at_end e then (some tok, e) else (some tok, e.tail)

/-! ## The tokenizer `parse_args` (bshell.c lines 123-144) -/

/-- The size of a `char*`, in bytes (LP64). -/
def sizeof_char_ptr : Nat := 8

/-- The argument vector `parse_args` returns: the tokens stored at indices
`0 .. n_spaces-1`, the byte size requested by the last `realloc`, and the index
at which the terminating NULL pointer is stored. -/
structure ArgVec where
  tokens : List (List Char)
  bytes : Nat
  null_at : Nat
deriving DecidableEq

/-- What a call of `parse_args` does. -/
inductive ParseResult where
  /-- Returned NULL: a `realloc` in the loop failed (line 135). -/
  | null
  /-- The unchecked last `realloc` failed and line 142 stores through NULL. -/
  | fault
  /-- The loop did not finish within the fuel of the model. -/
  | diverged
  /-- Returned the argument vector. -/
  | vec (v : ArgVec)
deriving DecidableEq

/-- The delimiter string of `parse_args`, `const char delim[2] = " "`. -/
def delim : List Char := [SP]

/-- The `while (token != NULL)` loop of `parse_args` and the code after it.
`token` is the current token, `save` the saved pointer of `strtok`, `args` the
vector filled so far and `n_spaces` its counter. -/
def parse_loop (ra : Nat → Bool) :
    Nat → Option (List Char) → List Char → List (List Char) → Nat → ParseResult
  | 0, _, _, _, _ => ParseResult.diverged
  | _ + 1, none, _, args, n_spaces =>
    -- args = realloc(args, sizeof(char*) * n_spaces+1); args[n_spaces] = NULL;
    if ra (sizeof_char_ptr * n_spaces + 1) then
      ParseResult.vec { tokens := args, bytes := sizeof_char_ptr * n_spaces + 1, null_at := n_spaces }
    else ParseResult.fault
  | fuel + 1, some token, save, args, n_spaces =>
    -- args = realloc(args, sizeof(char*) * ++n_spaces);
    if ra (sizeof_char_ptr * (n_spaces + 1)) then
      -- args[n_spaces-1] = token; token = strtok(NULL, delim);
      let r := strtok delim save
      parse_loop ra fuel r.1 r.2 (args ++ [token]) (n_spaces + 1)
    else ParseResult.null

/-- The function `parse_args`: tokenize the line on the space character.
The block of the initial `malloc(sizeof **args)` is only ever handed to
`realloc`, which treats a NULL argument as a fresh allocation, so that call
has no part in the result. -/
def parse_args (ra : Nat → Bool) (line : List Char) : ParseResult :=
  let r := strtok delim line
  parse_loop ra (line.length + 2) r.1 r.2 [] 0

/-- The characters of a token of `parse_args`: neither the space nor NUL. -/
def tokch (c : Char) : Bool := c != SP && c != NUL

/-- Spec-side definition, from the words of the specification: the maximal
runs of non-space characters of a line, left to right, that is the pieces
between the spaces with the empty pieces dropped. -/
def maximal_runs (line : List Char) : List (List Char) :=
  (line.splitOn SP).filter (fun t => t ≠ [])

/-! ## System calls, the environment and outcomes -/

/-- The signals whose disposition the shell changes. -/
inductive Signal where
  | SIGINT | SIGQUIT | SIGTSTP | SIGTTIN | SIGTTOU | SIGCHLD
deriving DecidableEq

/-- The two dispositions the program installs. -/
inductive Handler where
  | SIG_DFL | SIG_IGN
deriving DecidableEq

/-- One system or library call with an effect outside the process memory, with
the arguments it was given. A NULL string argument is `none`. -/
inductive Event where
  /-- The text one `printf` call writes to standard output. -/
  | printf (text : List Char)
  /-- A diagnostic written by `perror` with the given label. -/
  | perror (label : List Char)
  | chdir (path : Option (List Char))
  | fork
  | setpgid (pid pgid : Int)
  | tcsetpgrp (fd pgid : Int)
  | signal (sig : Signal) (h : Handler)
  | execvp (file : Option (List Char)) (argv : List (List Char))
  | waitpid (pid : Int)
deriving DecidableEq

/-- What the operating system answers to the process that runs the code. -/
structure Env where
  /-- The value `fork` returns in the observed process: 0 in the child, the
  child's process id (positive) in the shell, negative when `fork` failed. -/
  fork_pid : Int
  /-- The indeterminate initial value of the local `pgid` of `launch_process`,
  which is declared without an initializer (line 147). -/
  pgid_init : Int
  /-- Whether `execvp` finds and starts the program (it returns only on failure, with -1). -/
  execvp_ok : Bool
  /-- Whether `chdir` succeeds on the given path. -/
  chdir_ok : Option (List Char) → Bool
  /-- The termination status of the child; `waitpid(pid, NULL, 0)` does not read it. -/
  child_status : Int

/-- How running a piece of code ends, with the calls it made. The status of
`ret` is `none` when control reaches the end of an `int` function without a
`return` statement, so that the value the caller reads is indeterminate. -/
inductive Outcome where
  /-- The function returned to its caller. -/
  | ret (status : Option Int) (trace : List Event)
  /-- The process terminated through `exit(code)`; nothing returns to the caller. -/
  | exit (code : Int) (trace : List Event)
  /-- The process image was replaced by `execvp`; nothing returns to the caller. -/
  | exec (trace : List Event)
  /-- Undefined behaviour: a NULL pointer was dereferenced. -/
  | fault (trace : List Event)
deriving DecidableEq

/-- The calls made. -/
def Outcome.trace : Outcome → List Event
  | Outcome.ret _ t => t
  | Outcome.exit _ t => t
  | Outcome.exec t => t
  | Outcome.fault t => t

/-- The outcome of code that first made the calls `pre`. -/
def Outcome.after (pre : List Event) : Outcome → Outcome
  | Outcome.ret s t => Outcome.ret s (pre ++ t)
  | Outcome.exit c t => Outcome.exit c (pre ++ t)
  | Outcome.exec t => Outcome.exec (pre ++ t)
  | Outcome.fault t => Outcome.fault (pre ++ t)

/-- Everything written to standard output, in order. -/
def stdout_of : List Event → List Char
  | [] => []
  | Event.printf s :: t => s ++ stdout_of t
  | _ :: t => stdout_of t

/-- The process-group argument of every `tcsetpgrp` call, in order. -/
def tcsetpgrp_groups : List Event → List Int
  | [] => []
  | Event.tcsetpgrp _ g :: t => g :: tcsetpgrp_groups t
  | _ :: t => tcsetpgrp_groups t

/-- The arguments of every `setpgid` call, in order. -/
def setpgid_calls : List Event → List (Int × Int)
  | [] => []
  | Event.setpgid p g :: t => (p, g) :: setpgid_calls t
  | _ :: t => setpgid_calls t

/-- POSIX `setpgid(pid, pgid)` called by the process `caller`: the id of the
group the target process is asked to join. A `pid` of 0 names the caller and a
`pgid` of 0 names the group whose id is the target's process id. -/
def setpgid_group (caller pid pgid : Int) : Int :=
  if pgid = 0 then (if pid = 0 then caller else pid) else pgid

/-- The value CONTINUE of the loop status. -/
def CONTINUE : Int := 1

/-- The value STOP of the loop status. -/
def STOP : Int := 0

/-- The constant `EXIT_FAILURE`. -/
def EXIT_FAILURE : Int := 1

/-- The constant `STDIN_FILENO`. -/
def STDIN_FILENO : Int := 0

/-- The global `shell_terminal`, as `init_shell` sets it (line 66). -/
def shell_terminal : Int := STDIN_FILENO

/-! ## The builtin table (lines 24-38) and the builtins (lines 201-245) -/

/-- The table `bshell_builtins` of builtin names. -/
def bshell_builtins : List (List Char) :=
  ["cd".toList, "echo".toList, "exit".toList, "help".toList, "logout".toList]

/-- The function `num_builtins`: the number of entries of `bshell_builtins`. -/
def num_builtins : Nat := bshell_builtins.length

/-- The builtin `cd`: `chdir(args[1])`, a diagnostic on failure, return 1.
`args[1]` is NULL when the vector holds the command name only. -/
def bshell_cd (args : List (List Char)) (env : Env) : Outcome :=
  if env.chdir_ok (args.get? 1) then Outcome.ret (some 1) [Event.chdir (args.get? 1)]
  else Outcome.ret (some 1) [Event.chdir (args.get? 1), Event.perror "bshell".toList]

/-- The loop of `bshell_echo` from index `i` on, `rest` being `args[i..]`:
the first token is printed with the format `%s`, the later ones with ` %s`. -/
def bshell_echo_loop : Nat → List (List Char) → List Event
  | _, [] => []
  | i, t :: rest =>
    (if i = 1 then Event.printf t else Event.printf (SP :: t)) :: bshell_echo_loop (i + 1) rest

/-- The builtin `echo`: print `args[1..]`, then a line terminator, return 1. -/
def bshell_echo (args : List (List Char)) (_env : Env) : Outcome :=
  Outcome.ret (some 1) (bshell_echo_loop 1 (args.drop 1) ++ [Event.printf [NL]])

/-- The builtin behind `exit` and `logout`: return 0. -/
def bshell_exit (_args : List (List Char)) (_env : Env) : Outcome :=
  Outcome.ret (some 0) []

/-- The builtin `help`: print the banner and the builtin names, one per line.
The function body ends without a `return` statement (line 245). -/
def bshell_help (_args : List (List Char)) (_env : Env) : Outcome :=
  Outcome.ret none
    ([Event.printf (List.replicate 31 SP),
      Event.printf "BSHELL - BABY SHELL\n".toList,
      Event.printf (List.replicate 30 SP),
      Event.printf "=====================\n".toList,
      Event.printf "BUILTINS:\n".toList]
     ++ bshell_builtins.map (fun name => Event.printf (name ++ [NL])))

/-- The table `builtin_funcs`, index-aligned with `bshell_builtins`. -/
def builtin_funcs : List (List (List Char) → Env → Outcome) :=
  [bshell_cd, bshell_echo, bshell_exit, bshell_help, bshell_exit]

/-! ## The process launcher (lines 146-178) -/

/-- The function `launch_process`, as run by the process in which `fork`
returned `env.fork_pid`. -/
def launch_process (args : List (List Char)) (env : Env) : Outcome :=
  let pid := env.fork_pid
  if pid = 0 then
    -- if (pgid == 0) pgid = pid;  with pgid not initialised
    let pgid := if env.pgid_init = 0 then pid else env.pgid_init
    let t := [Event.fork,
      Event.setpgid pid pgid,
      Event.tcsetpgrp shell_terminal pgid,
      Event.signal Signal.SIGINT Handler.SIG_DFL,
      Event.signal Signal.SIGQUIT Handler.SIG_DFL,
      Event.signal Signal.SIGTSTP Handler.SIG_DFL,
      Event.signal Signal.SIGTTIN Handler.SIG_DFL,
      Event.signal Signal.SIGTTOU Handler.SIG_DFL,
      Event.signal Signal.SIGCHLD Handler.SIG_DFL,
      Event.execvp args.head? args]
    if env.execvp_ok then Outcome.exec t
    else Outcome.exit EXIT_FAILURE (t ++ [Event.perror "bshell".toList])
  else if pid < 0 then
    Outcome.ret (some 1) [Event.fork, Event.perror "bshell".toList]
  else
    Outcome.ret (some 1) [Event.fork, Event.waitpid pid]

/-! ## The dispatcher (lines 180-198) -/

/-- The loop `for (i = 0; i < num_builtins(); i++)` of `execute`, entered at
index `i` with `k` iterations left, and the code after it. `name` is
`args[0]`. -/
def execute_loop (name : List Char) (args : List (List Char)) (env : Env) :
    Nat → Nat → Outcome
  | 0, _ => launch_process args env
  | k + 1, i =>
    if strcmp name (bshell_builtins.getD i []) = 0 then
      (builtin_funcs.getD i bshell_exit) args env
    else execute_loop name args env k (i + 1)

/-- The function `execute`. On an empty vector `args[0]` is NULL and `strcmp`
dereferences it. -/
def execute (args : List (List Char)) (env : Env) : Outcome :=
  match args with
  | [] => Outcome.fault []
  | name :: _ => execute_loop name args env num_builtins 0

/-! ## One iteration of the command loop (lines 101-120) -/

/-- The prompt. -/
def prompt : List Char := "(>**)> ".toList

/-- One iteration of the `do ... while (status)` loop of `commands`: `line` is
the buffer `getline` filled (the line with its terminator, then NUL), `status`
the value of the variable `status` on entry. The status of the outcome is its
value at the loop test. -/
def commands_step (ra : Nat → Bool) (env : Env) (line : List Char) (status : Option Int) :
    Outcome :=
  if line.headD NUL != NL then
    -- every line terminator in the buffer is replaced by NUL
    let line1 := line.map (fun c => if c = NL then NUL else c)
    match parse_args ra line1 with
    | ParseResult.vec v => Outcome.after [Event.printf prompt] (execute v.tokens env)
    | _ => Outcome.fault [Event.printf prompt]
  else Outcome.ret status [Event.printf prompt]

/-! ## Sample environments -/

/-- An environment of the shell process: `fork` succeeded and returned the
child's process id 4242, the child found its program and ended with status 3. -/
def env_shell : Env :=
  { fork_pid := 4242, pgid_init := 0, execvp_ok := true, chdir_ok := fun _ => true,
    child_status := 3 }

/-! ## Facts about characters and C strings -/

theorem SP_ne_NUL : SP ≠ NUL := by decide

theorem delim_contains (c : Char) : delim.contains c = (c == SP) := by
  rw [Bool.eq_iff_iff]
  simp [delim]

theorem cstr_nil : cstr [] = [] := rfl

theorem cstr_of_at_end (s : List Char) (h : at_end s = true) : cstr s = [] := by
  cases s with
  | nil => rfl
  | cons c t =>
    simp only [at_end, beq_iff_eq] at h
    simp [cstr, h]

theorem cstr_cons_of_ne (c : Char) (s : List Char) (h : c ≠ NUL) :
    cstr (c :: s) = c :: cstr s := by
  simp [cstr, h]

theorem cstr_append_of_not_mem (t e : List Char) (h : ∀ x ∈ t, x ≠ NUL) :
    cstr (t ++ e) = t ++ cstr e := by
  induction t with
  | nil => rfl
  | cons c t ih =>
    have hc : c ≠ NUL := h c (List.mem_cons_self _ _)
    have ht : ∀ x ∈ t, x ≠ NUL := fun x hx => h x (List.mem_cons_of_mem _ hx)
    rw [List.cons_append, cstr_cons_of_ne _ _ hc, ih ht, List.cons_append]

theorem cstr_of_not_mem (l : List Char) (h : NUL ∉ l) : cstr l = l := by
  have := cstr_append_of_not_mem l [] (fun x hx hxn => h (hxn ▸ hx))
  simpa [cstr_nil] using this

theorem char_toNat_ne_zero (c : Char) (h : c ≠ NUL) : (c.toNat : Int) ≠ 0 := by
  intro h0
  apply h
  have h1 : c.toNat = 0 := by exact_mod_cast h0
  apply Char.ext
  apply UInt32.ext
  simpa [Char.toNat, UInt32.toNat] using h1

theorem char_toNat_sub_ne_zero (a b : Char) (h : a ≠ b) :
    (a.toNat : Int) - (b.toNat : Int) ≠ 0 := by
  intro h0
  apply h
  have h1 : a.toNat = b.toNat := by omega
  apply Char.ext
  apply UInt32.ext
  simpa [Char.toNat, UInt32.toNat] using h1

/-- On C strings (lists without NUL) `strcmp` is zero exactly on equal strings. -/
theorem strcmp_eq_zero_iff (a b : List Char) (ha : NUL ∉ a) (hb : NUL ∉ b) :
    strcmp a b = 0 ↔ a = b := by
  induction a generalizing b with
  | nil =>
    cases b with
    | nil => simp [strcmp]
    | cons y ys =>
      have hy : y ≠ NUL := fun h => hb (h ▸ List.mem_cons_self _ _)
      have := char_toNat_ne_zero y hy
      simp only [strcmp]
      constructor
      · intro h; omega
      · intro h; cases h
  | cons x xs ih =>
    have hx : x ≠ NUL := fun h => ha (h ▸ List.mem_cons_self _ _)
    have hxs : NUL ∉ xs := fun h => ha (List.mem_cons_of_mem _ h)
    cases b with
    | nil =>
      have := char_toNat_ne_zero x hx
      simp only [strcmp]
      constructor
      · intro h; omega
      · intro h; cases h
    | cons y ys =>
      have hys : NUL ∉ ys := fun h => hb (List.mem_cons_of_mem _ h)
      simp only [strcmp]
      by_cases hxy : x = y
      · subst hxy
        simp only [if_true, if_neg hx, ih ys hxs hys]
        constructor
        · intro h; rw [h]
        · intro h; exact (List.cons.inj h).2
      · simp only [if_neg hxy]
        constructor
        · intro h; exact absurd h (char_toNat_sub_ne_zero x y hxy)
        · intro h; exact absurd (List.cons.inj h).1 hxy

/-! ## Facts about the maximal runs -/

theorem maximal_runs_nil : maximal_runs [] = [] := by
  simp [maximal_runs, List.splitOn]

theorem maximal_runs_cons_SP (x : List Char) : maximal_runs (SP :: x) = maximal_runs x := by
  simp [maximal_runs, List.splitOn]

theorem maximal_runs_single (t : List Char) (ht : t ≠ []) (h : SP ∉ t) :
    maximal_runs t = [t] := by
  have hs : t.splitOn SP = [t] := by
    apply List.splitOnP_eq_single
    intro x hx hp
    rw [beq_iff_eq] at hp
    exact h (hp ▸ hx)
  simp [maximal_runs, hs, ht]

theorem maximal_runs_first (t : List Char) (ht : t ≠ []) (h : SP ∉ t) (x : List Char) :
    maximal_runs (t ++ SP :: x) = t :: maximal_runs x := by
  have hs : (t ++ SP :: x).splitOn SP = t :: x.splitOn SP := by
    apply List.splitOnP_first
    · intro y hy hp
      rw [beq_iff_eq] at hp
      exact h (hp ▸ hy)
    · simp
  simp [maximal_runs, hs, ht]

theorem maximal_runs_replicate (k : Nat) : maximal_runs (List.replicate k SP) = [] := by
  induction k with
  | zero => exact maximal_runs_nil
  | succ k ih => rw [List.replicate_succ, maximal_runs_cons_SP, ih]

theorem maximal_runs_nonempty (line t : List Char) (h : t ∈ maximal_runs line) : t ≠ [] := by
  simp only [maximal_runs, List.mem_filter, decide_eq_true_eq] at h
  exact h.2

theorem splitOn_SP_cons (c : Char) (l : List Char) :
    (c :: l).splitOn SP =
      if c = SP then [] :: l.splitOn SP else (l.splitOn SP).modifyHead (List.cons c) := by
  simp only [List.splitOn, List.splitOnP_cons, beq_iff_eq]

theorem splitOn_SP_ne_nil (l : List Char) : l.splitOn SP ≠ [] :=
  List.splitOnP_ne_nil _ l

theorem splitOn_SP_no_space (l : List Char) : ∀ t ∈ l.splitOn SP, SP ∉ t := by
  induction l with
  | nil =>
    intro t ht
    simp only [List.splitOn_nil, List.mem_singleton] at ht
    subst ht
    exact List.not_mem_nil _
  | cons c l ih =>
    intro t ht
    rw [splitOn_SP_cons] at ht
    by_cases hc : c = SP
    · rw [if_pos hc] at ht
      rcases List.mem_cons.1 ht with h | h
      · subst h; exact List.not_mem_nil _
      · exact ih t h
    · rw [if_neg hc] at ht
      cases hl : l.splitOn SP with
      | nil => exact absurd hl (splitOn_SP_ne_nil l)
      | cons a r =>
        rw [hl] at ht ih
        simp only [List.modifyHead_cons, List.mem_cons] at ht
        rcases ht with h | h
        · subst h
          intro hm
          rcases List.mem_cons.1 hm with h1 | h1
          · exact hc h1.symm
          · exact ih a (List.mem_cons_self _ _) h1
        · exact ih t (List.mem_cons_of_mem _ h)

theorem splitOn_SP_flatten (l : List Char) :
    (l.splitOn SP).flatten = l.filter (fun c => c != SP) := by
  induction l with
  | nil => rfl
  | cons c l ih =>
    rw [splitOn_SP_cons]
    by_cases hc : c = SP
    · subst hc
      simp [ih]
    · rw [if_neg hc]
      cases hl : l.splitOn SP with
      | nil => exact absurd hl (splitOn_SP_ne_nil l)
      | cons a r =>
        rw [hl] at ih
        simp only [List.modifyHead_cons, List.flatten_cons, List.cons_append] at ih ⊢
        rw [ih]
        simp [hc]

theorem splitOn_SP_append_SP (l : List Char) :
    (l ++ [SP]).splitOn SP = l.splitOn SP ++ [[]] := by
  induction l with
  | nil => decide
  | cons c l ih =>
    rw [List.cons_append, splitOn_SP_cons, splitOn_SP_cons, ih]
    by_cases hc : c = SP
    · simp [hc]
    · rw [if_neg hc, if_neg hc]
      cases hl : l.splitOn SP with
      | nil => exact absurd hl (splitOn_SP_ne_nil l)
      | cons a r => rfl

theorem flatten_filter_ne_nil (L : List (List Char)) :
    (L.filter (fun t => t ≠ [])).flatten = L.flatten := by
  induction L with
  | nil => rfl
  | cons a L ih =>
    cases a with
    | nil => simpa using ih
    | cons x xs =>
      have hx : decide (x :: xs ≠ []) = true := by simp
      rw [List.filter_cons, if_pos hx, List.flatten_cons, List.flatten_cons, ih]

theorem maximal_runs_no_space (line t : List Char) (h : t ∈ maximal_runs line) : SP ∉ t := by
  simp only [maximal_runs, List.mem_filter] at h
  exact splitOn_SP_no_space line t h.1

theorem maximal_runs_flatten (line : List Char) :
    (maximal_runs line).flatten = line.filter (fun c => c != SP) := by
  rw [maximal_runs, flatten_filter_ne_nil, splitOn_SP_flatten]

theorem maximal_runs_append_SP (line : List Char) :
    maximal_runs (line ++ [SP]) = maximal_runs line := by
  simp [maximal_runs, splitOn_SP_append_SP]

theorem maximal_runs_append_replicate (line : List Char) (k : Nat) :
    maximal_runs (line ++ List.replicate k SP) = maximal_runs line := by
  induction k generalizing line with
  | zero => simp
  | succ k ih =>
    rw [List.replicate_succ, ← List.singleton_append, ← List.append_assoc, ih,
      maximal_runs_append_SP]

theorem maximal_runs_replicate_append (k : Nat) (line : List Char) :
    maximal_runs (List.replicate k SP ++ line) = maximal_runs line := by
  induction k with
  | zero => simp
  | succ k ih => rw [List.replicate_succ, List.cons_append, maximal_runs_cons_SP, ih]

theorem maximal_runs_all_spaces (line : List Char) (h : ∀ c ∈ line, c = SP) :
    maximal_runs line = [] := by
  rw [List.eq_replicate_of_mem h]
  exact maximal_runs_replicate _

theorem splitOn_SP_append_cons (x y : List Char) :
    (x ++ SP :: y).splitOn SP = x.splitOn SP ++ y.splitOn SP := by
  induction x with
  | nil => simp [splitOn_SP_cons]
  | cons c x ih =>
    rw [List.cons_append, splitOn_SP_cons, splitOn_SP_cons, ih]
    by_cases hc : c = SP
    · simp [hc]
    · rw [if_neg hc, if_neg hc]
      cases hl : x.splitOn SP with
      | nil => exact absurd hl (splitOn_SP_ne_nil x)
      | cons a r => rfl

theorem maximal_runs_append_cons (x y : List Char) :
    maximal_runs (x ++ SP :: y) = maximal_runs x ++ maximal_runs y := by
  simp [maximal_runs, splitOn_SP_append_cons]

theorem maximal_runs_gap (x y : List Char) (k : Nat) :
    maximal_runs (x ++ List.replicate (k + 1) SP ++ y) = maximal_runs x ++ maximal_runs y := by
  rw [List.replicate_succ, List.append_assoc, List.cons_append, maximal_runs_append_cons,
    maximal_runs_replicate_append]

theorem mem_intercalate_SP (words : List (List Char)) (x : Char)
    (h : x ∈ [SP].intercalate words) : x = SP ∨ ∃ w ∈ words, x ∈ w := by
  induction words with
  | nil => simp [List.intercalate] at h
  | cons w ws ih =>
    cases ws with
    | nil =>
      simp [List.intercalate] at h
      right; exact ⟨w, List.mem_cons_self _ _, h⟩
    | cons w2 ws2 =>
      simp only [List.intercalate, List.intersperse, List.flatten_cons, List.mem_append,
        List.mem_singleton] at h ih
      rcases h with h | h | h
      · right; exact ⟨w, List.mem_cons_self _ _, h⟩
      · left; exact h
      · rcases ih h with h2 | ⟨u, hu, hx⟩
        · left; exact h2
        · right; exact ⟨u, List.mem_cons_of_mem _ hu, hx⟩

theorem maximal_runs_intercalate (words : List (List Char)) (hne : words ≠ [])
    (hw : ∀ w ∈ words, w ≠ [] ∧ SP ∉ w) :
    maximal_runs ([SP].intercalate words) = words := by
  rw [maximal_runs, List.splitOn_intercalate _ SP (fun l hl => (hw l hl).2) hne]
  apply List.filter_eq_self.2
  intro t ht
  simpa using (hw t ht).1

/-! ## Facts about `strtok` -/

theorem tokch_iff (c : Char) : tokch c = true ↔ c ≠ SP ∧ c ≠ NUL := by
  simp [tokch]

theorem delim_fun : (fun c => delim.contains c) = (fun c => c == SP) :=
  funext delim_contains

theorem tokch_fun : (fun c => !(delim.contains c) && c != NUL) = tokch := by
  funext c
  rw [delim_contains]
  rfl

/-- The function `strtok` with the delimiter set of `parse_args` spelled out. -/
theorem strtok_delim (s : List Char) :
    strtok delim s =
      if at_end s then (none, s)
      else if at_end (s.dropWhile (fun c => c == SP)) then (none, s.dropWhile (fun c => c == SP))
      else if at_end ((s.dropWhile (fun c => c == SP)).dropWhile tokch) then
        (some ((s.dropWhile (fun c => c == SP)).takeWhile tokch),
          (s.dropWhile (fun c => c == SP)).dropWhile tokch)
      else
        (some ((s.dropWhile (fun c => c == SP)).takeWhile tokch),
          ((s.dropWhile (fun c => c == SP)).dropWhile tokch).tail) := by
  unfold strtok
  rw [delim_fun, tokch_fun]

theorem at_end_iff (s : List Char) : at_end s = true ↔ s = [] ∨ ∃ t, s = NUL :: t := by
  cases s with
  | nil => simp [at_end]
  | cons c t =>
    simp only [at_end, beq_iff_eq]
    constructor
    · intro h; right; exact ⟨t, by rw [h]⟩
    · intro h
      rcases h with h | ⟨u, h⟩
      · cases h
      · exact (List.cons.inj h).1

theorem dropWhile_SP_of_at_end (s : List Char) (h : at_end s = true) :
    s.dropWhile (fun c => c == SP) = s := by
  rcases (at_end_iff s).1 h with h | ⟨t, h⟩
  · subst h; rfl
  · subst h
    have : (NUL == SP) = false := by decide
    simp [List.dropWhile_cons, this]

theorem strtok_cons_SP (s : List Char) : strtok delim (SP :: s) = strtok delim s := by
  have h1 : at_end (SP :: s) = false := by
    show (SP == NUL) = false
    decide
  have h2 : (SP :: s).dropWhile (fun c => c == SP) = s.dropWhile (fun c => c == SP) := by
    simp [List.dropWhile_cons]
  rw [strtok_delim, strtok_delim, h2]
  by_cases he : at_end s = true
  · simp [h1, he, dropWhile_SP_of_at_end s he]
  · simp [h1, he]

theorem dropWhile_head_false (p : Char → Bool) (l : List Char) (x : Char) (r : List Char)
    (h : l.dropWhile p = x :: r) : p x = false := by
  induction l with
  | nil => cases h
  | cons a l ih =>
    rw [List.dropWhile_cons] at h
    by_cases ha : p a = true
    · rw [if_pos ha] at h
      exact ih h
    · rw [if_neg ha] at h
      have := (List.cons.inj h).1
      subst this
      simpa using ha

theorem length_dropWhile_le (p : Char → Bool) (l : List Char) :
    (l.dropWhile p).length ≤ l.length := by
  induction l with
  | nil => simp
  | cons a l ih =>
    rw [List.dropWhile_cons]
    split
    · exact Nat.le_succ_of_le ih
    · exact Nat.le_refl _

/-- What one call of `strtok` does on a string that starts with a token
character: the token is the run of token characters, and the saved pointer is
left at the terminator or just past the space that ended the token. -/
theorem strtok_token (c : Char) (t : List Char) (hc : tokch c = true) :
    ∃ s', strtok delim (c :: t) = (some (c :: t.takeWhile tokch), s') ∧
      s'.length ≤ t.length ∧
      maximal_runs (cstr (c :: t)) = (c :: t.takeWhile tokch) :: maximal_runs (cstr s') := by
  have hcc := (tokch_iff c).1 hc
  have h1 : at_end (c :: t) = false := by
    simp only [at_end, beq_eq_false_iff_ne]
    exact hcc.2
  have h2 : (c :: t).dropWhile (fun c => c == SP) = c :: t := by
    simp [List.dropWhile_cons, hcc.1]
  have h3 : (c :: t).takeWhile tokch = c :: t.takeWhile tokch := by
    simp [List.takeWhile_cons, hc]
  have h4 : (c :: t).dropWhile tokch = t.dropWhile tokch := by
    simp [List.dropWhile_cons, hc]
  have htok : ∀ x ∈ c :: t.takeWhile tokch, x ≠ SP ∧ x ≠ NUL := by
    intro x hx
    rcases List.mem_cons.1 hx with hx | hx
    · subst hx; exact hcc
    · exact (tokch_iff x).1 (List.mem_takeWhile_imp hx)
  have hsplit : c :: t = (c :: t.takeWhile tokch) ++ t.dropWhile tokch := by
    rw [List.cons_append, List.takeWhile_append_dropWhile]
  have hcs : ∀ e, cstr ((c :: t.takeWhile tokch) ++ e) = (c :: t.takeWhile tokch) ++ cstr e :=
    fun e => cstr_append_of_not_mem _ e (fun x hx => (htok x hx).2)
  have hnsp : SP ∉ c :: t.takeWhile tokch := fun h => (htok SP h).1 rfl
  rw [strtok_delim, h2, h3, h4]
  simp only [h1, Bool.false_eq_true, if_false]
  by_cases he : at_end (t.dropWhile tokch) = true
  · refine ⟨t.dropWhile tokch, by simp [he], length_dropWhile_le _ _, ?_⟩
    rw [hsplit, hcs, cstr_of_at_end _ he, List.append_nil, maximal_runs_nil]
    exact maximal_runs_single _ (List.cons_ne_nil _ _) hnsp
  · cases hd : t.dropWhile tokch with
    | nil => rw [hd] at he; exact absurd rfl he
    | cons x e' =>
      have hx : tokch x = false := dropWhile_head_false tokch t x e' hd
      have hxn : x ≠ NUL := by
        intro h
        apply he
        rw [hd, h]
        rfl
      have hxs : x = SP := by
        by_contra hne
        have := (tokch_iff x).2 ⟨hne, hxn⟩
        rw [hx] at this
        cases this
      subst hxs
      have hlen := length_dropWhile_le tokch t
      rw [hd] at hlen he
      refine ⟨e', by simp [he], by simp at hlen; omega, ?_⟩
      rw [hsplit, hd, hcs, cstr_cons_of_ne _ _ SP_ne_NUL]
      exact maximal_runs_first _ (List.cons_ne_nil _ _) hnsp _

/-- The function `strtok` on any buffer: either there is no token and the
string has no maximal run, or the token is the first maximal run and the saved
pointer holds the rest of the string. -/
theorem strtok_spec (s : List Char) :
    (∃ s', strtok delim s = (none, s') ∧ maximal_runs (cstr s) = []) ∨
    (∃ tok s', strtok delim s = (some tok, s') ∧ s'.length < s.length ∧
      maximal_runs (cstr s) = tok :: maximal_runs (cstr s')) := by
  induction s with
  | nil =>
    left
    exact ⟨[], rfl, maximal_runs_nil⟩
  | cons c t ih =>
    by_cases hsp : c = SP
    · subst hsp
      rw [strtok_cons_SP, cstr_cons_of_ne _ _ SP_ne_NUL, maximal_runs_cons_SP]
      rcases ih with ⟨s', h1, h2⟩ | ⟨tok, s', h1, h2, h3⟩
      · left; exact ⟨s', h1, h2⟩
      · right; exact ⟨tok, s', h1, by simp; omega, h3⟩
    · by_cases hn : c = NUL
      · subst hn
        left
        have hend : at_end (NUL :: t) = true := rfl
        refine ⟨NUL :: t, ?_, ?_⟩
        · rw [strtok_delim]
          simp [hend]
        · rw [cstr_of_at_end _ hend]
          exact maximal_runs_nil
      · right
        obtain ⟨s', h1, h2, h3⟩ := strtok_token c t ((tokch_iff c).2 ⟨hsp, hn⟩)
        exact ⟨_, s', h1, by simp; omega, h3⟩

/-! ## The tokenizer computes the maximal runs -/

/-- The loop of `parse_args`, entered with the result of a `strtok` call on
`s`, appends the maximal runs of `s` to the vector, provided `realloc`
succeeds and the fuel exceeds the length of `s`. -/
theorem parse_loop_spec (ra : Nat → Bool) (hra : ∀ n, ra n = true) :
    ∀ (fuel : Nat) (s : List Char) (args : List (List Char)), s.length < fuel →
      parse_loop ra fuel (strtok delim s).1 (strtok delim s).2 args args.length =
        ParseResult.vec
          { tokens := args ++ maximal_runs (cstr s),
            bytes := sizeof_char_ptr * (args ++ maximal_runs (cstr s)).length + 1,
            null_at := (args ++ maximal_runs (cstr s)).length } := by
  intro fuel
  induction fuel with
  | zero => intro s args h; exact absurd h (Nat.not_lt_zero _)
  | succ fuel ih =>
    intro s args hlen
    rcases strtok_spec s with ⟨s', h1, h2⟩ | ⟨tok, s', h1, h2, h3⟩
    · rw [h1, h2]
      simp [parse_loop, hra]
    · rw [h1, h3]
      simp only [parse_loop, hra, if_true]
      have hlen' : s'.length < fuel := by omega
      have := ih s' (args ++ [tok]) hlen'
      rw [List.length_append, List.length_singleton] at this
      rw [this]
      simp

/-- With a `realloc` that succeeds, `parse_args` returns the maximal runs of
the C string in its buffer, asks for `sizeof(char*) * n + 1` bytes in its last
`realloc` and stores NULL at index `n`, the number of tokens. -/
theorem parse_args_spec (ra : Nat → Bool) (hra : ∀ n, ra n = true) (line : List Char) :
    parse_args ra line =
      ParseResult.vec
        { tokens := maximal_runs (cstr line),
          bytes := sizeof_char_ptr * (maximal_runs (cstr line)).length + 1,
          null_at := (maximal_runs (cstr line)).length } := by
  have := parse_loop_spec ra hra (line.length + 2) line [] (by omega)
  simpa [parse_args] using this

/-- The model never runs out of fuel, whatever `realloc` does. -/
theorem parse_loop_ne_diverged (ra : Nat → Bool) :
    ∀ (fuel : Nat) (s : List Char) (args : List (List Char)) (n : Nat), s.length < fuel →
      parse_loop ra fuel (strtok delim s).1 (strtok delim s).2 args n ≠ ParseResult.diverged := by
  intro fuel
  induction fuel with
  | zero => intro s args n h; exact absurd h (Nat.not_lt_zero _)
  | succ fuel ih =>
    intro s args n hlen
    rcases strtok_spec s with ⟨s', h1, _⟩ | ⟨tok, s', h1, h2, _⟩
    · rw [h1]
      simp only [parse_loop]
      split <;> simp
    · rw [h1]
      simp only [parse_loop]
      split
      · exact ih s' _ _ (by omega)
      · simp

theorem parse_args_ne_diverged (ra : Nat → Bool) (line : List Char) :
    parse_args ra line ≠ ParseResult.diverged :=
  parse_loop_ne_diverged ra (line.length + 2) line [] 0 (by omega)

/-! ## Claims about the tokenizer -/

/-- C1 (tokenizer round trip): for every list of N >= 1 words, each non-empty
and containing neither a space nor NUL, `parse_args` applied to the words
joined by exactly one space returns a vector of exactly N tokens, equal to
those words in the same order (`realloc` being assumed to succeed). -/
theorem parse_args_round_trip (ra : Nat → Bool) (hra : ∀ n, ra n = true)
    (words : List (List Char)) (hN : 1 ≤ words.length)
    (hw : ∀ w ∈ words, w ≠ [] ∧ SP ∉ w ∧ NUL ∉ w) :
    ∃ v, parse_args ra ([SP].intercalate words) = ParseResult.vec v ∧
      v.tokens = words ∧ v.tokens.length = words.length ∧ v.null_at = words.length := by
  have hne : words ≠ [] := by
    intro h
    rw [h] at hN
    exact absurd hN (by decide)
  have hnul : NUL ∉ [SP].intercalate words := by
    intro h
    rcases mem_intercalate_SP words NUL h with h1 | ⟨w, hw1, hw2⟩
    · exact SP_ne_NUL h1.symm
    · exact (hw w hw1).2.2 hw2
  have hruns := maximal_runs_intercalate words hne (fun w h => ⟨(hw w h).1, (hw w h).2.1⟩)
  refine ⟨_, parse_args_spec ra hra _, ?_, ?_, ?_⟩
  · simp only [cstr_of_not_mem _ hnul, hruns]
  · simp only [cstr_of_not_mem _ hnul, hruns]
  · simp only [cstr_of_not_mem _ hnul, hruns]

/-- The round trip on the two words of `ls -l`. -/
theorem parse_args_round_trip_witness :
    ∃ v, parse_args (fun _ => true) ([SP].intercalate ["ls".toList, "-l".toList]) =
        ParseResult.vec v ∧
      v.tokens = ["ls".toList, "-l".toList] ∧
      v.tokens.length = ["ls".toList, "-l".toList].length ∧
      v.null_at = ["ls".toList, "-l".toList].length :=
  parse_args_round_trip (fun _ => true) (fun _ => rfl) ["ls".toList, "-l".toList]
    (by decide) (by decide)

/-- C7 (tokens are the maximal runs): for every line without NUL,
`parse_args` returns exactly the maximal runs of non-space characters of the
line, in left-to-right order (`realloc` being assumed to succeed). No token is
empty and none holds a space, the tokens concatenated are the non-space
characters of the line in order, spaces added in front of or behind the line
change nothing, a run of one or more spaces only separates what stands on
either side of it, a tab or a quote character stays inside its token, and a
line made only of spaces gives the empty vector. -/
theorem parse_args_maximal_runs (ra : Nat → Bool) (hra : ∀ n, ra n = true)
    (line : List Char) (hnul : NUL ∉ line) :
    ∃ v, parse_args ra line = ParseResult.vec v ∧
      v.tokens = maximal_runs line ∧
      (∀ t ∈ v.tokens, t ≠ [] ∧ SP ∉ t) ∧
      v.tokens.flatten = line.filter (fun c => c != SP) ∧
      (∀ a b : Nat,
        parse_args ra (List.replicate a SP ++ line ++ List.replicate b SP) =
          ParseResult.vec v) ∧
      (∀ (x y : List Char) (k : Nat), line = x ++ List.replicate (k + 1) SP ++ y →
        v.tokens = maximal_runs x ++ maximal_runs y) ∧
      (∀ (u w : List Char) (c : Char), (c = TAB ∨ c = QUOTE ∨ c = DQUOTE) →
        SP ∉ u → SP ∉ w → line = u ++ c :: w → v.tokens = [u ++ c :: w]) ∧
      ((∀ c ∈ line, c = SP) → v.tokens = []) := by
  refine ⟨_, parse_args_spec ra hra line, ?_, ?_, ?_, ?_, ?_, ?_, ?_⟩
  · simp only [cstr_of_not_mem _ hnul]
  · intro t ht
    simp only [cstr_of_not_mem _ hnul] at ht
    exact ⟨maximal_runs_nonempty line t ht, maximal_runs_no_space line t ht⟩
  · simp only [cstr_of_not_mem _ hnul]
    exact maximal_runs_flatten line
  · intro a b
    have hpad : NUL ∉ List.replicate a SP ++ line ++ List.replicate b SP := by
      intro h
      simp only [List.mem_append, List.mem_replicate] at h
      rcases h with (h | h) | h
      · exact SP_ne_NUL h.2.symm
      · exact hnul h
      · exact SP_ne_NUL h.2.symm
    rw [parse_args_spec ra hra, cstr_of_not_mem _ hpad, cstr_of_not_mem _ hnul,
      maximal_runs_append_replicate, maximal_runs_replicate_append]
  · intro x y k hxy
    simp only [cstr_of_not_mem _ hnul]
    rw [hxy]
    exact maximal_runs_gap x y k
  · intro u w c hc hu hw hl
    simp only [cstr_of_not_mem _ hnul]
    rw [hl]
    apply maximal_runs_single _ (by simp)
    intro hm
    rcases List.mem_append.1 hm with h | h
    · exact hu h
    · rcases List.mem_cons.1 h with h | h
      · rcases hc with hc | hc | hc <;> · rw [hc] at h; revert h; decide
      · exact hw h
  · intro hall
    simp only [cstr_of_not_mem _ hnul]
    exact maximal_runs_all_spaces line hall

/-- The maximal runs of a line with leading, doubled and trailing spaces and a tab. -/
theorem parse_args_maximal_runs_witness :
    ∃ v, parse_args (fun _ => true) " ls  -l\ta ".toList = ParseResult.vec v ∧
      v.tokens = ["ls".toList, "-l\ta".toList] :=
  have h := parse_args_maximal_runs (fun _ => true) (fun _ => rfl) " ls  -l\ta ".toList
    (by decide)
  h.imp (fun _ hv => ⟨hv.1, hv.2.1.trans (by decide)⟩)

/-- C10 (the vector has room for its terminator), as the code has it: for
every line, with a `realloc` that succeeds, the last `realloc` of `parse_args`
asks for `sizeof(char*) * n + 1` bytes, where `n` is the number of tokens, and
NULL is stored at index `n`; the request is smaller than the
`(n + 1) * sizeof(char*)` bytes that index `n` needs. -/
theorem parse_args_last_realloc_too_small (line : List Char) :
    ∃ v, parse_args (fun _ => true) line = ParseResult.vec v ∧
      v.tokens = maximal_runs (cstr line) ∧
      v.null_at = v.tokens.length ∧
      v.bytes = sizeof_char_ptr * v.tokens.length + 1 ∧
      v.bytes < (v.tokens.length + 1) * sizeof_char_ptr :=
  ⟨_, parse_args_spec (fun _ => true) (fun _ => rfl) line, rfl, rfl, rfl, by
    simp only [sizeof_char_ptr]; omega⟩

/-! ## Facts about the dispatcher and the builtins -/

/-- The loop of `execute`, unrolled over the five entries of the tables. -/
theorem execute_cons (name : List Char) (rest : List (List Char)) (env : Env) :
    execute (name :: rest) env =
      if strcmp name "cd".toList = 0 then bshell_cd (name :: rest) env
      else if strcmp name "echo".toList = 0 then bshell_echo (name :: rest) env
      else if strcmp name "exit".toList = 0 then bshell_exit (name :: rest) env
      else if strcmp name "help".toList = 0 then bshell_help (name :: rest) env
      else if strcmp name "logout".toList = 0 then bshell_exit (name :: rest) env
      else launch_process (name :: rest) env := rfl

/-- The same with the comparisons of C strings read as equalities. -/
theorem execute_eq (name : List Char) (rest : List (List Char)) (env : Env) (hnul : NUL ∉ name) :
    execute (name :: rest) env =
      if name = "cd".toList then bshell_cd (name :: rest) env
      else if name = "echo".toList then bshell_echo (name :: rest) env
      else if name = "exit".toList then bshell_exit (name :: rest) env
      else if name = "help".toList then bshell_help (name :: rest) env
      else if name = "logout".toList then bshell_exit (name :: rest) env
      else launch_process (name :: rest) env := by
  rw [execute_cons]
  simp only [strcmp_eq_zero_iff name "cd".toList hnul (by decide),
    strcmp_eq_zero_iff name "echo".toList hnul (by decide),
    strcmp_eq_zero_iff name "exit".toList hnul (by decide),
    strcmp_eq_zero_iff name "help".toList hnul (by decide),
    strcmp_eq_zero_iff name "logout".toList hnul (by decide)]

theorem mem_bshell_builtins (name : List Char) :
    name ∈ bshell_builtins ↔
      name = "cd".toList ∨ name = "echo".toList ∨ name = "exit".toList ∨
        name = "help".toList ∨ name = "logout".toList := by
  simp [bshell_builtins]

theorem execute_external (name : List Char) (rest : List (List Char)) (env : Env)
    (hnul : NUL ∉ name) (hnb : name ∉ bshell_builtins) :
    execute (name :: rest) env = launch_process (name :: rest) env := by
  rw [mem_bshell_builtins] at hnb
  simp only [not_or] at hnb
  rw [execute_eq name rest env hnul, if_neg hnb.1, if_neg hnb.2.1, if_neg hnb.2.2.1,
    if_neg hnb.2.2.2.1, if_neg hnb.2.2.2.2]

theorem fork_mem_launch_process (args : List (List Char)) (env : Env) :
    Event.fork ∈ (launch_process args env).trace := by
  unfold launch_process
  simp only []
  split
  · split <;> simp [Outcome.trace]
  · split <;> simp [Outcome.trace]

theorem bshell_echo_loop_printf (i : Nat) (ts : List (List Char)) :
    ∀ e ∈ bshell_echo_loop i ts, ∃ s, e = Event.printf s := by
  induction ts generalizing i with
  | nil => intro e he; cases he
  | cons t ts ih =>
    intro e he
    rw [bshell_echo_loop] at he
    rcases List.mem_cons.1 he with h | h
    · split at h
      · exact ⟨_, h⟩
      · exact ⟨_, h⟩
    · exact ih _ e h

theorem bshell_echo_printf (args : List (List Char)) (env : Env) :
    ∀ e ∈ (bshell_echo args env).trace, ∃ s, e = Event.printf s := by
  intro e he
  simp only [bshell_echo, Outcome.trace, List.mem_append, List.mem_singleton] at he
  rcases he with h | h
  · exact bshell_echo_loop_printf _ _ e h
  · exact ⟨_, h⟩

theorem fork_not_mem_builtin (args : List (List Char)) (env : Env) :
    Event.fork ∉ (bshell_cd args env).trace ∧ Event.fork ∉ (bshell_echo args env).trace ∧
      Event.fork ∉ (bshell_exit args env).trace ∧ Event.fork ∉ (bshell_help args env).trace := by
  refine ⟨?_, ?_, ?_, ?_⟩
  · unfold bshell_cd
    split <;> simp [Outcome.trace]
  · intro h
    obtain ⟨s, hs⟩ := bshell_echo_printf args env _ h
    cases hs
  · simp [bshell_exit, Outcome.trace]
  · simp only [bshell_help, Outcome.trace]
    decide

theorem stdout_of_append (a b : List Event) : stdout_of (a ++ b) = stdout_of a ++ stdout_of b := by
  induction a with
  | nil => rfl
  | cons e a ih =>
    cases e <;> simp [stdout_of, ih]

theorem stdout_of_echo_loop_later (i : Nat) (hi : 2 ≤ i) (ts : List (List Char)) :
    stdout_of (bshell_echo_loop i ts) = (ts.map (fun t => SP :: t)).flatten := by
  induction ts generalizing i with
  | nil => rfl
  | cons t ts ih =>
    have hi1 : i ≠ 1 := by omega
    rw [bshell_echo_loop, if_neg hi1]
    simp only [stdout_of, ih (i + 1) (by omega), List.map_cons, List.flatten_cons]

theorem intercalate_SP_cons (t : List Char) (ts : List (List Char)) :
    [SP].intercalate (t :: ts) = t ++ (ts.map (fun t => SP :: t)).flatten := by
  induction ts generalizing t with
  | nil => simp [List.intercalate]
  | cons u us ih =>
    have h := ih u
    simp only [List.intercalate, List.intersperse, List.flatten_cons, List.map_cons] at h ⊢
    rw [h]
    simp

theorem stdout_of_echo_loop (ts : List (List Char)) :
    stdout_of (bshell_echo_loop 1 ts) = [SP].intercalate ts := by
  cases ts with
  | nil => rfl
  | cons t ts =>
    rw [bshell_echo_loop, if_pos rfl, intercalate_SP_cons]
    simp only [stdout_of]
    rw [stdout_of_echo_loop_later 2 (Nat.le_refl 2)]

theorem bshell_builtins_no_NUL : ∀ b ∈ bshell_builtins, NUL ∉ b := by decide

theorem bshell_builtins_no_extension :
    ∀ b ∈ bshell_builtins, ∀ x ∈ bshell_builtins, x.take b.length = b → x.length ≤ b.length := by
  decide

theorem bshell_builtins_no_proper_head :
    ∀ b ∈ bshell_builtins, ∀ k, k < b.length → b.take k ∉ bshell_builtins ∧ NUL ∉ b.take k := by
  intro b hb k hk
  rw [mem_bshell_builtins] at hb
  rcases hb with h | h | h | h | h <;> subst h
  · have hk5 : k < 2 := hk
    interval_cases k <;> decide
  · have hk5 : k < 4 := hk
    interval_cases k <;> decide
  · have hk5 : k < 4 := hk
    interval_cases k <;> decide
  · have hk5 : k < 4 := hk
    interval_cases k <;> decide
  · have hk5 : k < 6 := hk
    interval_cases k <;> decide

theorem bshell_builtins_upper :
    ∀ b ∈ bshell_builtins, b.map Char.toUpper ∉ bshell_builtins ∧ NUL ∉ b.map Char.toUpper := by
  decide

/-! ## Claims about the dispatcher, the builtins and the launcher -/

/-- C2 (dispatch by exact name, first match wins): for every argument vector
whose first token `name` is a C string, `execute` runs the operation
registered at the first index whose name equals `name`, on the full vector,
and its outcome is that operation's outcome (`cd` runs `bshell_cd`, `echo`
runs `bshell_echo`, `exit` and `logout` run `bshell_exit`, `help` runs
`bshell_help`); it hands the vector to `launch_process`, which is what calls
`fork`, if and only if `name` is none of the five names. A proper initial part
of a builtin name, a builtin name with more characters behind it and a builtin
name in upper case are not matches. -/
theorem execute_dispatch (name : List Char) (rest : List (List Char)) (env : Env)
    (hnul : NUL ∉ name) :
    (∀ i, i < num_builtins → bshell_builtins.getD i [] = name →
      (∀ j, j < i → bshell_builtins.getD j [] ≠ name) →
      execute (name :: rest) env = (builtin_funcs.getD i bshell_exit) (name :: rest) env) ∧
    (name = "cd".toList → execute (name :: rest) env = bshell_cd (name :: rest) env) ∧
    (name = "echo".toList → execute (name :: rest) env = bshell_echo (name :: rest) env) ∧
    (name = "exit".toList → execute (name :: rest) env = bshell_exit (name :: rest) env) ∧
    (name = "help".toList → execute (name :: rest) env = bshell_help (name :: rest) env) ∧
    (name = "logout".toList → execute (name :: rest) env = bshell_exit (name :: rest) env) ∧
    (name ∉ bshell_builtins →
      execute (name :: rest) env = launch_process (name :: rest) env) ∧
    (Event.fork ∈ (execute (name :: rest) env).trace ↔ name ∉ bshell_builtins) ∧
    (∀ b ∈ bshell_builtins, ∀ k, k < b.length →
      execute (b.take k :: rest) env = launch_process (b.take k :: rest) env) ∧
    (∀ b ∈ bshell_builtins, ∀ (c : Char) (more : List Char), NUL ∉ c :: more →
      execute ((b ++ c :: more) :: rest) env = launch_process ((b ++ c :: more) :: rest) env) ∧
    (∀ b ∈ bshell_builtins,
      execute (b.map Char.toUpper :: rest) env =
        launch_process (b.map Char.toUpper :: rest) env) := by
  refine ⟨?_, ?_, ?_, ?_, ?_, ?_, ?_, ?_, ?_, ?_, ?_⟩
  · intro i hi hget _
    have hi5 : i < 5 := hi
    interval_cases i
    · have h : "cd".toList = name := hget
      subst h; rfl
    · have h : "echo".toList = name := hget
      subst h; rfl
    · have h : "exit".toList = name := hget
      subst h; rfl
    · have h : "help".toList = name := hget
      subst h; rfl
    · have h : "logout".toList = name := hget
      subst h; rfl
  · intro h; subst h; rfl
  · intro h; subst h; rfl
  · intro h; subst h; rfl
  · intro h; subst h; rfl
  · intro h; subst h; rfl
  · exact execute_external name rest env hnul
  · constructor
    · intro hf hb
      have hnf := fork_not_mem_builtin (name :: rest) env
      rw [mem_bshell_builtins] at hb
      rcases hb with h | h | h | h | h <;> subst h
      · exact hnf.1 hf
      · exact hnf.2.1 hf
      · exact hnf.2.2.1 hf
      · exact hnf.2.2.2 hf
      · exact hnf.2.2.1 hf
    · intro hb
      rw [execute_external name rest env hnul hb]
      exact fork_mem_launch_process _ env
  · intro b hb k hk
    have h := bshell_builtins_no_proper_head b hb k hk
    exact execute_external _ rest env h.2 h.1
  · intro b hb c more hcm
    apply execute_external
    · intro hm
      rcases List.mem_append.1 hm with h | h
      · exact bshell_builtins_no_NUL b hb h
      · exact hcm h
    · intro hx
      have h := bshell_builtins_no_extension b hb _ hx (List.take_left _ _)
      simp only [List.length_append, List.length_cons] at h
      omega
  · intro b hb
    have h := bshell_builtins_upper b hb
    exact execute_external _ rest env h.2 h.1

/-- The dispatch of `echo hi` in the shell process. -/
theorem execute_dispatch_witness :
    execute ["echo".toList, "hi".toList] env_shell =
      bshell_echo ["echo".toList, "hi".toList] env_shell :=
  (execute_dispatch "echo".toList ["hi".toList] env_shell (by decide)).2.2.1 rfl

/-- C3 (`exit` and `logout` stop the loop): for every argument vector whose
first token is `exit` or `logout`, whatever follows it, `execute` returns STOP
(0) and makes no call at all: no process is launched and nothing is written. -/
theorem execute_exit_logout (rest : List (List Char)) (env : Env) :
    execute ("exit".toList :: rest) env = Outcome.ret (some STOP) [] ∧
    execute ("logout".toList :: rest) env = Outcome.ret (some STOP) [] :=
  ⟨rfl, rfl⟩

/-- C4 (an external command never stops the loop): for every argument vector
whose first token is a C string that is not a builtin name, in the shell
process (where `fork` did not return 0) `execute` returns CONTINUE (1): after a
diagnostic when `fork` failed, and after `waitpid` on the child otherwise,
whether or not the child found its program and whatever its status. In the
child itself `execute` never returns: the program replaces the process image,
or the child ends with `EXIT_FAILURE` when the program cannot be started. -/
theorem execute_external_continues (name : List Char) (rest : List (List Char)) (env : Env)
    (hnul : NUL ∉ name) (hnb : name ∉ bshell_builtins) :
    (env.fork_pid ≠ 0 →
      ∃ tr, execute (name :: rest) env = Outcome.ret (some CONTINUE) tr) ∧
    (env.fork_pid < 0 →
      execute (name :: rest) env =
        Outcome.ret (some CONTINUE) [Event.fork, Event.perror "bshell".toList]) ∧
    (0 < env.fork_pid →
      execute (name :: rest) env =
        Outcome.ret (some CONTINUE) [Event.fork, Event.waitpid env.fork_pid]) ∧
    (env.fork_pid = 0 → env.execvp_ok = false →
      ∃ tr, execute (name :: rest) env = Outcome.exit EXIT_FAILURE tr) ∧
    (env.fork_pid = 0 → env.execvp_ok = true →
      ∃ tr, execute (name :: rest) env = Outcome.exec tr) := by
  rw [execute_external name rest env hnul hnb]
  unfold launch_process
  refine ⟨?_, ?_, ?_, ?_, ?_⟩
  · intro h
    simp only [if_neg h]
    split
    · exact ⟨_, rfl⟩
    · exact ⟨_, rfl⟩
  · intro h
    have h0 : env.fork_pid ≠ 0 := by omega
    simp only [if_neg h0, if_pos h]
    rfl
  · intro h
    have h0 : env.fork_pid ≠ 0 := by omega
    have h1 : ¬ env.fork_pid < 0 := by omega
    simp only [if_neg h0, if_neg h1]
    rfl
  · intro h he
    simp only [if_pos h, he]
    exact ⟨_, rfl⟩
  · intro h he
    simp only [if_pos h, he]
    exact ⟨_, rfl⟩

/-- An unknown program name in the shell process: the loop goes on. -/
theorem execute_external_continues_witness :
    ∃ tr, execute ["not_a_real_program".toList, "arg1".toList] env_shell =
      Outcome.ret (some CONTINUE) tr :=
  (execute_external_continues "not_a_real_program".toList ["arg1".toList] env_shell
    (by decide) (by decide)).1 (by decide)

/-- C6 (`help` returns CONTINUE), as the code has it: for every argument
vector whose first token is `help`, `execute` runs `bshell_help`, which prints
the banner and the five builtin names and then reaches the end of its body
without a `return` statement: no status is returned, so in particular not
CONTINUE. -/
theorem execute_help_returns_nothing (rest : List (List Char)) (env : Env) :
    execute ("help".toList :: rest) env = bshell_help ("help".toList :: rest) env ∧
    (∃ tr, execute ("help".toList :: rest) env = Outcome.ret none tr) ∧
    (∀ tr, execute ("help".toList :: rest) env ≠ Outcome.ret (some CONTINUE) tr) ∧
    stdout_of (execute ("help".toList :: rest) env).trace =
      (List.replicate 31 SP ++ "BSHELL - BABY SHELL\n".toList ++ List.replicate 30 SP
        ++ "=====================\n".toList
        ++ "BUILTINS:\ncd\necho\nexit\nhelp\nlogout\n".toList) := by
  have h2 : execute ("help".toList :: rest) env = bshell_help ("help".toList :: rest) env := rfl
  refine ⟨rfl, ⟨_, rfl⟩, ?_, ?_⟩
  · intro tr h
    rw [h2, bshell_help] at h
    injection h with h3 _
    cases h3
  · rw [h2]
    simp only [bshell_help, Outcome.trace]
    decide

/-- C8 (`echo`): for every argument vector `echo t1 ... tk`, `k >= 0`,
`bshell_echo`, which is what `execute` runs, only writes to standard output,
writes exactly the tokens `t1 ... tk` joined by single spaces followed by one
line terminator (the line terminator alone when `k = 0`), and returns
CONTINUE (1). -/
theorem bshell_echo_output (ts : List (List Char)) (env : Env) :
    ∃ tr, bshell_echo ("echo".toList :: ts) env = Outcome.ret (some CONTINUE) tr ∧
      execute ("echo".toList :: ts) env = Outcome.ret (some CONTINUE) tr ∧
      stdout_of tr = [SP].intercalate ts ++ [NL] ∧
      (∀ e ∈ tr, ∃ s, e = Event.printf s) ∧
      (ts = [] → stdout_of tr = [NL]) ∧
      (ts = ["a".toList, "b".toList, "c".toList] → stdout_of tr = "a b c\n".toList) := by
  have hout : stdout_of (bshell_echo_loop 1 ts ++ [Event.printf [NL]]) =
      [SP].intercalate ts ++ [NL] := by
    rw [stdout_of_append, stdout_of_echo_loop]
    rfl
  refine ⟨bshell_echo_loop 1 ts ++ [Event.printf [NL]], rfl, rfl, hout, ?_, ?_, ?_⟩
  · exact bshell_echo_printf ("echo".toList :: ts) env
  · intro h
    rw [hout, h]
    rfl
  · intro h
    rw [hout, h]
    decide

/-- C9 (the child's process group), as the code has it: in the child branch
of `launch_process` (`fork` returned 0) the group passed to `setpgid` and to
`tcsetpgrp` is the value `g` that the uninitialised local `pgid` happens to
hold, and `setpgid` is called with process argument 0; the process id `c` of
the child is never read. So the terminal is asked for group `c` only if `g`
happens to be `c`, and the child is asked to join group `c` only if `g` is 0
or `c`: when `g` is 0 the terminal is asked for group 0, and when `g` is
another value both calls name that group. -/
theorem launch_process_child_group (args : List (List Char)) (env : Env) (g c : Int) :
    setpgid_calls (launch_process args { env with fork_pid := 0, pgid_init := g }).trace =
      [(0, g)] ∧
    tcsetpgrp_groups (launch_process args { env with fork_pid := 0, pgid_init := g }).trace =
      [g] ∧
    (tcsetpgrp_groups (launch_process args { env with fork_pid := 0, pgid_init := g }).trace =
      [c] ↔ g = c) ∧
    setpgid_group c 0 g = (if g = 0 then c else g) ∧
    tcsetpgrp_groups (launch_process args { env with fork_pid := 0, pgid_init := 0 }).trace ≠
      [1234] ∧
    setpgid_group 1234 0 77 ≠ 1234 := by
  have key : ∀ h : Int, (if h = 0 then (0 : Int) else h) = h := by
    intro h
    split
    · omega
    · rfl
  have hs : ∀ h : Int,
      setpgid_calls (launch_process args { env with fork_pid := 0, pgid_init := h }).trace =
        [(0, h)] := by
    intro h
    unfold launch_process
    simp only [if_true, key]
    split <;> rfl
  have ht : ∀ h : Int,
      tcsetpgrp_groups (launch_process args { env with fork_pid := 0, pgid_init := h }).trace =
        [h] := by
    intro h
    unfold launch_process
    simp only [if_true, key]
    split <;> rfl
  refine ⟨hs g, ht g, ?_, ?_, ?_, by decide⟩
  · rw [ht g]
    constructor
    · intro h; exact (List.cons.inj h).1
    · intro h; rw [h]
  · simp [setpgid_group]
  · rw [ht 0]
    decide

/-! ## Claims about the command loop -/

/-- C5 (blank lines are not dispatched), as the code has it: on an empty line
(the buffer starts with the line terminator) one iteration of `commands` only
prints the prompt and leaves the status as it was; but on a line of one or
more spaces followed by the line terminator the test on `line[0]` lets the
line through, `parse_args` returns the empty vector and `execute` is called on
it, where `strcmp` dereferences the NULL in `args[0]`. -/
theorem commands_step_blank_lines (env : Env) (status : Option Int) (k : Nat) :
    (∀ (ra : Nat → Bool) (more : List Char),
      commands_step ra env (NL :: more) status = Outcome.ret status [Event.printf prompt]) ∧
    parse_args (fun _ => true) (List.replicate (k + 1) SP ++ [NUL, NUL]) =
      ParseResult.vec { tokens := [], bytes := 1, null_at := 0 } ∧
    commands_step (fun _ => true) env (List.replicate (k + 1) SP ++ [NL, NUL]) status =
      Outcome.after [Event.printf prompt] (execute [] env) ∧
    execute [] env = Outcome.fault [] ∧
    commands_step (fun _ => true) env (List.replicate (k + 1) SP ++ [NL, NUL]) status ≠
      Outcome.ret status [Event.printf prompt] := by
  have hcs : cstr (List.replicate (k + 1) SP ++ [NUL, NUL]) = List.replicate (k + 1) SP := by
    rw [cstr_append_of_not_mem]
    · have hend : at_end [NUL, NUL] = true := rfl
      rw [cstr_of_at_end _ hend, List.append_nil]
    · intro x hx
      rw [(List.mem_replicate.1 hx).2]
      exact SP_ne_NUL
  have hparse : parse_args (fun _ => true) (List.replicate (k + 1) SP ++ [NUL, NUL]) =
      ParseResult.vec { tokens := [], bytes := 1, null_at := 0 } := by
    rw [parse_args_spec (fun _ => true) (fun _ => rfl), hcs, maximal_runs_replicate]
    rfl
  have hmap : (List.replicate (k + 1) SP ++ [NL, NUL]).map (fun c => if c = NL then NUL else c) =
      List.replicate (k + 1) SP ++ [NUL, NUL] := by
    rw [List.map_append, List.map_replicate]
    have h1 : (if SP = NL then NUL else SP) = SP := by decide
    rw [h1]
    rfl
  have hhead : ((List.replicate (k + 1) SP ++ [NL, NUL]).headD NUL != NL) = true := by
    rw [List.replicate_succ]
    show (SP != NL) = true
    decide
  have hstep : commands_step (fun _ => true) env (List.replicate (k + 1) SP ++ [NL, NUL]) status =
      Outcome.after [Event.printf prompt] (execute [] env) := by
    unfold commands_step
    rw [if_pos hhead]
    simp only [hmap, hparse]
  refine ⟨?_, hparse, hstep, rfl, ?_⟩
  · intro ra more
    unfold commands_step
    have h : ((NL :: more).headD NUL != NL) = false := by
      show (NL != NL) = false
      decide
    rw [h]
    rfl
  · rw [hstep]
    intro h
    cases h

end Bshell
